import Mathlib

/-!
# Verification of the `image_to_mesh` contour/mesh pipeline

Shallow embedding of the Rust sources `src/contour.rs` and `src/lib.rs`.

Modelling conventions:
* pixel values (`u8`) are natural numbers;
* `f32` arithmetic on coordinates is idealised as exact arithmetic: the
  tracer and the smoother/scaler only ever divide integers, so their
  points live in `ℚ`; the simplifier's angle test uses `Real.sqrt` and
  `Real.arccos` over `ℝ`;
* `image::GrayImage::get_pixel` panics on out-of-range coordinates, and
  `u32` subtraction below zero aborts (debug) or wraps to an index that
  is again out of range (release); both are modelled by an access
  returning `none`, which the tracer surfaces as the `panic` outcome.
-/

/-- A 2D point, as in the Rust `[f32; 2]` (exact-arithmetic model). -/
abbrev Pt : Type := ℚ × ℚ

/-! ## `Contour::smooth` (src/contour.rs lines 51-71) -/

/-- One smoothing pass: every point is replaced by the unweighted average of
its cyclic predecessor, itself and its cyclic successor
(`(prev + current + next) / 3.0`, per coordinate). -/
def smoothOnce (c : List Pt) : List Pt :=
  (List.range c.length).map (fun i =>
    let prev := c.getD ((i + c.length - 1) % c.length) (0, 0)
    let current := c.getD i (0, 0)
    let next := c.getD ((i + 1) % c.length) (0, 0)
    ((prev.1 + current.1 + next.1) / 3, (prev.2 + current.2 + next.2) / 3))

/-- `Contour::smooth`: `iterations` sequential passes of `smoothOnce`,
each operating on the previous pass's output. -/
def smooth (c : List Pt) : ℕ → List Pt
  | 0 => c
  | n + 1 => smooth (smoothOnce c) n

/-! ## `Contour::scale` (src/contour.rs lines 104-106) -/

/-- `Contour::scale`: divide every x by `width` and every y by `height`. -/
def scale (c : List Pt) (width height : ℚ) : List Pt :=
  c.map (fun p => (p.1 / width, p.2 / height))

/-! ## The tracer `find_contour_from_grayscale` (src/contour.rs lines 147-267) -/

/-- A grayscale image: dimensions plus a value for every grid cell
(the model of `image::GrayImage`). -/
structure Gray where
  width : ℕ
  height : ℕ
  pix : ℕ → ℕ → ℕ

/-- Bounds-checked pixel read. `none` models the panic of
`GrayImage::get_pixel` on an out-of-range (or `u32`-underflowed) index. -/
def getPix (g : Gray) (p : ℤ × ℤ) : Option ℕ :=
  if 0 ≤ p.1 ∧ p.1 < (g.width : ℤ) ∧ 0 ≤ p.2 ∧ p.2 < (g.height : ℤ) then
    some (g.pix p.1.toNat p.2.toNat)
  else none

/-- The tracer's look direction (`enum LookDirection`). -/
inductive LookDirection where
  | Right
  | Down
  | Left
  | Up
deriving DecidableEq, Repr

/-- The comparison cell sampled next to the current cell
(src/contour.rs lines 188-193). -/
def comparisonPoint (p : ℤ × ℤ) : LookDirection → ℤ × ℤ
  | .Right => (p.1, p.2 + 1)
  | .Down => (p.1 - 1, p.2)
  | .Left => (p.1, p.2 - 1)
  | .Up => (p.1 + 1, p.2)

/-- The point pushed on the contour at one tracing step
(src/contour.rs lines 197-202): with `outside_val = v0 - threshold`,
`inside_val = v1 - threshold` and `rt = outside_val / (outside_val -
inside_val)`, the point is `cur * rt + cmp * (1 - rt)` per coordinate. -/
def emitPoint (cur cmp : ℤ × ℤ) (v0 v1 threshold : ℕ) : Pt :=
  let outside_val : ℚ := (v0 : ℚ) - (threshold : ℚ)
  let inside_val : ℚ := (v1 : ℚ) - (threshold : ℚ)
  let rt := outside_val / (outside_val - inside_val)
  ((cur.1 : ℚ) * rt + (cmp.1 : ℚ) * (1 - rt),
   (cur.2 : ℚ) * rt + (cmp.2 : ℚ) * (1 - rt))

/-- The three-way priority move of the state machine
(src/contour.rs lines 206-263). `none` models a panicking read. -/
def stepMove (g : Gray) (threshold : ℕ) (cur : ℤ × ℤ) :
    LookDirection → Option ((ℤ × ℤ) × LookDirection)
  | .Right =>
    match getPix g (cur.1 + 1, cur.2 + 1) with
    | none => none
    | some v =>
      if v ≤ threshold then some ((cur.1 + 1, cur.2 + 1), .Down)
      else
        match getPix g (cur.1 + 1, cur.2) with
        | none => none
        | some w =>
          if w ≤ threshold then some ((cur.1 + 1, cur.2), .Right)
          else some (cur, .Up)
  | .Down =>
    match getPix g (cur.1 - 1, cur.2 + 1) with
    | none => none
    | some v =>
      if v ≤ threshold then some ((cur.1 - 1, cur.2 + 1), .Left)
      else
        match getPix g (cur.1, cur.2 + 1) with
        | none => none
        | some w =>
          if w ≤ threshold then some ((cur.1, cur.2 + 1), .Down)
          else some (cur, .Right)
  | .Left =>
    match getPix g (cur.1 - 1, cur.2 - 1) with
    | none => none
    | some v =>
      if v ≤ threshold then some ((cur.1 - 1, cur.2 - 1), .Up)
      else
        match getPix g (cur.1 - 1, cur.2) with
        | none => none
        | some w =>
          if w ≤ threshold then some ((cur.1 - 1, cur.2), .Left)
          else some (cur, .Down)
  | .Up =>
    match getPix g (cur.1 + 1, cur.2 - 1) with
    | none => none
    | some v =>
      if v ≤ threshold then some ((cur.1 + 1, cur.2 - 1), .Right)
      else
        match getPix g (cur.1, cur.2 - 1) with
        | none => none
        | some w =>
          if w ≤ threshold then some ((cur.1, cur.2 - 1), .Up)
          else some (cur, .Left)

/-- Result of the tracer: a contour, one of the two `&'static str` errors
of the Rust function, or a panic (out-of-bounds pixel access). -/
inductive TraceOutcome where
  | ok (c : List Pt)
  | errNoStart
  | errNonTerm
  | panic
deriving DecidableEq, Repr

/-- The tracing loop (src/contour.rs lines 175-264). `fuel` is the number
of loop iterations still allowed; it starts at `width * height`
(`max_iterations`), and hitting `0` is exactly the Rust guard
`sanity_check > max_iterations`, which returns the non-terminating-trace
error. Each surviving iteration first tests the closing condition
`contour.len() > 0 && current_point == start_point`, then reads the
current and comparison cells, pushes the interpolated point, and moves. -/
def traceAux (g : Gray) (threshold : ℕ) (start : ℤ × ℤ) :
    ℕ → (ℤ × ℤ) → LookDirection → List Pt → TraceOutcome
  | 0, _, _, _ => .errNonTerm
  | fuel + 1, cur, d, acc =>
    if acc.length > 0 ∧ cur = start then .ok acc
    else
      match getPix g cur, getPix g (comparisonPoint cur d) with
      | some v0, some v1 =>
        let p := emitPoint cur (comparisonPoint cur d) v0 v1 threshold
        match stepMove g threshold cur d with
        | some cd => traceAux g threshold start fuel cd.1 cd.2 (acc ++ [p])
        | none => .panic
      | _, _ => .panic

/-- Row-major enumeration order of `image.enumerate_pixels()`:
`y` outer, `x` inner. -/
def scanList (g : Gray) : List (ℕ × ℕ) :=
  (List.range g.height).flatMap (fun y => (List.range g.width).map (fun x => (x, y)))

/-- The start-point condition (src/contour.rs lines 151-159): not in the
last row, value `≤ threshold`, and the cell directly below `> threshold`. -/
def startCond (g : Gray) (threshold : ℕ) (q : ℕ × ℕ) : Bool :=
  decide (q.2 ≠ g.height - 1) && decide (g.pix q.1 q.2 ≤ threshold) &&
    decide (threshold < g.pix q.1 (q.2 + 1))

/-- The start-point search (src/contour.rs lines 149-166): first cell in
row-major order satisfying `startCond`. -/
def findStart (g : Gray) (threshold : ℕ) : Option (ℕ × ℕ) :=
  (scanList g).find? (startCond g threshold)

/-- `find_contour_from_grayscale`: find a start point (else the
"no starting point" error), then run the tracing loop from it looking
`Right`, with at most `width * height` iterations. -/
def find_contour_from_grayscale (g : Gray) (threshold : ℕ) : TraceOutcome :=
  match findStart g threshold with
  | none => .errNoStart
  | some s =>
    traceAux g threshold ((s.1 : ℤ), (s.2 : ℤ)) (g.width * g.height)
      ((s.1 : ℤ), (s.2 : ℤ)) .Right []

/-! ## `Contour::simplify` (src/contour.rs lines 73-102)

The angle test is `f32` trigonometry in the source; it is modelled over
`ℝ` (exact arithmetic). The decision in each loop step is a real-number
comparison, hence classically decidable only. -/

/-- Cast a rational point into `ℝ × ℝ`. -/
def toR (p : Pt) : ℝ × ℝ := ((p.1 : ℝ), (p.2 : ℝ))

/-- The helper `sub` of src/contour.rs lines 270-272. -/
def subV (a b : ℝ × ℝ) : ℝ × ℝ := (a.1 - b.1, a.2 - b.2)

/-- The helper `normalize` of src/contour.rs lines 274-277:
divide by the Euclidean norm (division by zero yields `0` in this model,
where the source would produce `f32` NaN; no claim depends on the
normalisation of a zero vector apart from the degenerate one-point
contour, where the resulting dot product is `0` either way). -/
noncomputable def normalizeV (v : ℝ × ℝ) : ℝ × ℝ :=
  (v.1 / Real.sqrt (v.1 * v.1 + v.2 * v.2), v.2 / Real.sqrt (v.1 * v.1 + v.2 * v.2))

/-- The turning angle computed at `current` (src/contour.rs lines 85-87):
`acos` of the dot product of the normalised vectors towards the next
point and towards the last retained previous point. -/
noncomputable def angleOf (current_prev current next : Pt) : ℝ :=
  (normalizeV (subV (toR next) (toR current))).1 *
      (normalizeV (subV (toR current_prev) (toR current))).1 +
    (normalizeV (subV (toR next) (toR current))).2 *
      (normalizeV (subV (toR current_prev) (toR current))).2 |> Real.arccos

/-- The deletion-marking condition of src/contour.rs line 89:
`(angle - PI).abs() < comparison_angle`. -/
def delCond (eps : ℝ) (current_prev current next : Pt) : Prop :=
  |angleOf current_prev current next - Real.pi| < eps

open Classical in
/-- The marking loop of src/contour.rs lines 80-95, over the list of
remaining indices: mark `true` (`should_be_deleted`) when `delCond`
holds, otherwise mark `false` and move the running reference point
(`current_prev_point`) to the current point. -/
noncomputable def marksAux (eps : ℝ) (c : List Pt) :
    List ℕ → Pt → List Bool
  | [], _ => []
  | i :: rest, current_prev =>
    if delCond eps current_prev (c.getD i (0, 0)) (c.getD ((i + 1) % c.length) (0, 0)) then
      true :: marksAux eps c rest current_prev
    else
      false :: marksAux eps c rest (c.getD i (0, 0))

/-- `Contour::simplify`: run the marking loop (the reference point starts
at the last point, `self[n_points - 1]`), then keep exactly the points
whose mark is `true` — the source's filter is
`.filter(|(i, _)| should_be_deleted[*i])`, without negation.
(On an empty contour the source's `self[n_points - 1]` would panic; the
model returns the empty list, and no claim touches that case.) -/
noncomputable def simplify (c : List Pt) (comparison_angle : ℝ) : List Pt :=
  let marks := marksAux comparison_angle c (List.range c.length) (c.getD (c.length - 1) (0, 0))
  ((c.zip marks).filter (fun q => q.2)).map (fun q => q.1)

/-! ## The pipeline `find_contour_from_transparency_with_offset`
(src/contour.rs lines 126-145)

The source extracts the alpha channel and feeds it to `sdf_image`, a thin
wrapper around the external `sdfer` crate (out of scope per the spec);
the resulting grayscale field, which has the dimensions of the input
image, is the `sdf` argument here. The stages applied to it are taken
verbatim from lines 140-144:
`find_contour_from_grayscale(&sdf, 128u8)?.smooth(..).scale(w, h).simplify(..)`. -/

/-- `Params` of src/contour.rs lines 110-114. -/
structure Params where
  border_offset : ℚ
  smooth_iterations : ℕ
  simplify_angle : ℝ

/-- Default parameters (src/contour.rs lines 116-124). -/
noncomputable def Params.default : Params :=
  { border_offset := 20, smooth_iterations := 10, simplify_angle := Real.pi / 30 }

/-- The pipeline: trace at threshold 128, then smooth, then scale by the
image dimensions, then simplify — in exactly the order of line 141-144. -/
noncomputable def find_contour_from_transparency_with_offset
    (sdf : Gray) (params : Params) : TraceOutcome :=
  match find_contour_from_grayscale sdf 128 with
  | .ok c =>
    .ok (simplify (scale (smooth c params.smooth_iterations) (sdf.width : ℚ) (sdf.height : ℚ))
      params.simplify_angle)
  | e => e

/-- The pipeline in the order stated by the spec (stages 3, 4, 5:
smoother, then simplifier, then scaler). This definition follows the
spec's words, for comparison with the code's order above. -/
noncomputable def pipelineSpecOrder (sdf : Gray) (params : Params) : TraceOutcome :=
  match find_contour_from_grayscale sdf 128 with
  | .ok c =>
    .ok (scale (simplify (smooth c params.smooth_iterations) params.simplify_angle)
      (sdf.width : ℚ) (sdf.height : ℚ))
  | e => e

/-! ## The mesh builder (src/lib.rs) -/

/-- `normal_of_line` (src/lib.rs lines 108-112): the *unit direction*
`v1 - v0` divided by its length — note: no 90-degree rotation. -/
noncomputable def normal_of_line (v0 v1 : Pt) : ℝ × ℝ :=
  normalizeV (subV (toR v1) (toR v0))

/-- The per-point side-wall normal of src/lib.rs lines 87-95: the average
of `normal_of_line(prev, i)` and `normal_of_line(i, next)`, with zero z. -/
noncomputable def sideNormal (c : List Pt) (i : ℕ) : ℝ × ℝ × ℝ :=
  let prev := if i = 0 then c.length - 1 else i - 1
  let next := (i + 1) % c.length
  let normal_0 := normal_of_line (c.getD prev (0, 0)) (c.getD i (0, 0))
  let normal_1 := normal_of_line (c.getD i (0, 0)) (c.getD next (0, 0))
  ((normal_0.1 + normal_1.1) / 2, (normal_0.2 + normal_1.2) / 2, 0)

/-- A 90-degree (clockwise, y-down) rotation. -/
def rotCW (v : ℝ × ℝ) : ℝ × ℝ := (v.2, -v.1)

/-- A 90-degree (counter-clockwise, y-down) rotation. -/
def rotCCW (v : ℝ × ℝ) : ℝ × ℝ := (-v.2, v.1)

/-- The side-wall normal as the spec's words describe it: average of the
90-degree-rotated unit edge directions (rotation convention supplied as
the `rot` argument, so both conventions can be compared with the code). -/
noncomputable def specSideNormal (rot : ℝ × ℝ → ℝ × ℝ) (c : List Pt) (i : ℕ) : ℝ × ℝ × ℝ :=
  let prev := if i = 0 then c.length - 1 else i - 1
  let next := (i + 1) % c.length
  let normal_0 := rot (normal_of_line (c.getD prev (0, 0)) (c.getD i (0, 0)))
  let normal_1 := rot (normal_of_line (c.getD i (0, 0)) (c.getD next (0, 0)))
  ((normal_0.1 + normal_1.1) / 2, (normal_0.2 + normal_1.2) / 2, 0)

/-- Modelled from the spec: the validation done by the external
`rgeometry` crate's `Polygon::new` together with its `earclip`
triangulator, which are not part of this repository ("an input polygon
with fewer than 3 points, or a degenerate polygon that the external
triangulator rejects"). The model rejects exactly the fewer-than-3-points
case; `none` is the rejection that `create_mesh_from_image` `unwrap`s. -/
def polygonNew (c : List Pt) : Option (List Pt) :=
  if c.length < 3 then none else some c

/-- Modelled from the spec: the triangle index triples produced by the
external ear-clipping triangulator (opaque per the spec); a fan suffices
as no claim depends on the particular triangulation. -/
def earclipFan (n : ℕ) : List (ℕ × ℕ × ℕ) :=
  (List.range (n - 2)).map (fun i => (0, i + 1, i + 2))

/-- The mesh data assembled by `create_mesh_from_image`
(src/lib.rs lines 45-103). -/
structure Mesh where
  vertices : List (ℝ × ℝ × ℝ)
  triangles : List (ℕ × ℕ × ℕ)
  uv_vertices : List (ℝ × ℝ)
  normals : List (ℝ × ℝ × ℝ)

/-- The mesh assembly of src/lib.rs lines 45-103, for a contour accepted
by the triangulator: front/back cap vertices at `z = 0` / `z =
thickness` (coordinates `0.5 - p`), cap triangles from the triangulation
(front with reversed winding), two side triangles per contour edge, cap
normals `(0,0,-1)` / `(0,0,1)` followed by the side normals, and
optional doubled UVs `(u, 1 - v)`. -/
noncomputable def buildMesh (c : List Pt) (thickness : ℝ) (include_uvs : Bool) : Mesh :=
  let n := c.length
  let tris := earclipFan n
  { vertices :=
      c.map (fun p => (((1 / 2 - p.1 : ℚ) : ℝ), ((1 / 2 - p.2 : ℚ) : ℝ), (0 : ℝ))) ++
        c.map (fun p => (((1 / 2 - p.1 : ℚ) : ℝ), ((1 / 2 - p.2 : ℚ) : ℝ), thickness))
    triangles :=
      tris.map (fun t => (t.1, t.2.2, t.2.1)) ++
        tris.map (fun t => (t.1 + n, t.2.1 + n, t.2.2 + n)) ++
        (List.range n).flatMap (fun i =>
          [(i, (i + 1) % n + n, i + n), (i, (i + 1) % n, (i + 1) % n + n)])
    uv_vertices :=
      if include_uvs then
        c.map (fun p => ((p.1 : ℝ), ((1 - p.2 : ℚ) : ℝ))) ++
          c.map (fun p => ((p.1 : ℝ), ((1 - p.2 : ℚ) : ℝ)))
      else []
    normals :=
      c.map (fun _ => ((0 : ℝ), (0 : ℝ), (-1 : ℝ))) ++
        c.map (fun _ => ((0 : ℝ), (0 : ℝ), (1 : ℝ))) ++
        (List.range n).map (sideNormal c) }

/-- Result of `create_mesh_from_image`: a mesh, one of the contour
errors propagated by `?`, or a panic. -/
inductive MeshOutcome where
  | ok (m : Mesh)
  | errNoStart
  | errNonTerm
  | panic

/-- `create_mesh_from_image` (src/lib.rs lines 37-106): obtain the
contour (propagating its errors with `?`), then
`Polygon::new(..).unwrap()` — the `unwrap` of a rejected polygon is a
panic, not an error return — then assemble the mesh. -/
noncomputable def create_mesh_from_image (sdf : Gray) (contour_params : Params)
    (thickness : ℝ) (include_uvs : Bool) : MeshOutcome :=
  match find_contour_from_transparency_with_offset sdf contour_params with
  | .ok c =>
    match polygonNew c with
    | none => .panic
    | some _ => .ok (buildMesh c thickness include_uvs)
  | .errNoStart => .errNoStart
  | .errNonTerm => .errNonTerm
  | .panic => .panic

/-! ## Auxiliary definitions used by the statements -/

/-- Pointwise difference of two rational points. -/
def subQ (a b : Pt) : Pt := (a.1 - b.1, a.2 - b.2)

/-- Dot product of two rational points. -/
def dotQ (u v : Pt) : ℚ := u.1 * v.1 + u.2 * v.2

/-- The interpolated point as the spec's words describe it, for
comparison with `emitPoint`: "the linear interpolation from the current
cell's integer coordinate toward the comparison cell's integer
coordinate by fraction t", i.e. `current + t * (comparison - current)`. -/
def specInterpPoint (cur cmp : ℤ × ℤ) (v0 v1 threshold : ℕ) : Pt :=
  let outside_val : ℚ := (v0 : ℚ) - (threshold : ℚ)
  let inside_val : ℚ := (v1 : ℚ) - (threshold : ℚ)
  let rt := outside_val / (outside_val - inside_val)
  ((cur.1 : ℚ) + rt * ((cmp.1 : ℚ) - (cur.1 : ℚ)),
   (cur.2 : ℚ) + rt * ((cmp.2 : ℚ) - (cur.2 : ℚ)))

/-- Every cell at or below the threshold lies strictly inside the grid
(no such cell on any image border). -/
def interiorOnly (g : Gray) (threshold : ℕ) : Prop :=
  ∀ x, x < g.width → ∀ y, y < g.height → g.pix x y ≤ threshold →
    1 ≤ x ∧ x + 1 < g.width ∧ 1 ≤ y ∧ y + 1 < g.height

/-- The tracing-loop invariant: the current cell reads below or at the
threshold, the comparison cell reads strictly above it. -/
def TraceInv (g : Gray) (threshold : ℕ) (cur : ℤ × ℤ) (d : LookDirection) : Prop :=
  (∃ v0, getPix g cur = some v0 ∧ v0 ≤ threshold) ∧
    (∃ v1, getPix g (comparisonPoint cur d) = some v1 ∧ threshold < v1)

/-- What is true of every point the tracing loop pushes: it is the
interpolation `emitPoint` of two successfully read adjacent cells, the
current one at or below the threshold and the comparison one above it. -/
def GoodPoint (g : Gray) (threshold : ℕ) (p : Pt) : Prop :=
  ∃ cur d v0 v1,
    getPix g cur = some v0 ∧ v0 ≤ threshold ∧
    getPix g (comparisonPoint cur d) = some v1 ∧ threshold < v1 ∧
    p = emitPoint cur (comparisonPoint cur d) v0 v1 threshold

/-- The scan list of a `w × h` grid, abstracted over the dimensions. -/
def scanListN (w h : ℕ) : List (ℕ × ℕ) :=
  (List.range h).flatMap (fun y => (List.range w).map (fun x => (x, y)))

/-! ## Concrete test images and contours -/

/-- 4×4 image whose only dark cell is `(1,1)`. -/
def img4 : Gray := ⟨4, 4, fun x y => if x = 1 ∧ y = 1 then 0 else 255⟩

/-- 5×10 image with a dark diamond centred at `(2,2)`. -/
def imgDiamond : Gray :=
  ⟨5, 10, fun x y =>
    if (x = 2 ∧ y = 1) ∨ (y = 2 ∧ (x = 1 ∨ x = 2 ∨ x = 3)) ∨ (x = 2 ∧ y = 3) then 0
    else 255⟩

/-- 4×4 image with a dark bar reaching the right border. -/
def imgRightB : Gray :=
  ⟨4, 4, fun x y => if (x = 1 ∨ x = 2 ∨ x = 3) ∧ y = 1 then 0 else 255⟩

/-- 4×4 image with a dark hook touching the top border. -/
def imgTopP : Gray :=
  ⟨4, 4, fun x y => if (x = 1 ∧ y = 0) ∨ (x = 2 ∧ (y = 0 ∨ y = 1)) then 0 else 255⟩

/-- 4×4 image with a dark two-cell bar touching the left border. -/
def imgLeftB : Gray :=
  ⟨4, 4, fun x y => if (x = 0 ∨ x = 1) ∧ y = 1 then 0 else 255⟩

/-- 1×2 image: 200 above 100 — dark below light, no downward crossing,
but not uniform with respect to threshold 128. -/
def img12 : Gray := ⟨1, 2, fun _ y => if y = 0 then 200 else 100⟩

/-- Parameters with no smoothing and angle tolerance `π/2`. -/
noncomputable def pHalf : Params := ⟨20, 0, Real.pi / 2⟩

/-- The unit-square contour. -/
def sq4 : List Pt := [(0, 0), (1, 0), (1, 1), (0, 1)]

/-- The ten points of the contour traced from `imgDiamond`, as
explicit rationals (see `trace_imgDiamond` and `cDiamond_eq`). -/
def cDiamond : List Pt :=
  [(1, 637 / 255),
   (383 / 255, 3),
   (2, 892 / 255),
   (637 / 255, 3),
   (3, 637 / 255),
   (892 / 255, 2),
   (3, 383 / 255),
   (637 / 255, 1),
   (2, 128 / 255),
   (383 / 255, 1)]

/-- `cDiamond` scaled into unit space by the image dimensions 5 and 10. -/
def cDiamondScaled : List Pt :=
  [(1 / 5, 637 / 2550),
   (383 / 1275, 3 / 10),
   (2 / 5, 446 / 1275),
   (637 / 1275, 3 / 10),
   (3 / 5, 637 / 2550),
   (892 / 1275, 1 / 5),
   (3 / 5, 383 / 2550),
   (637 / 1275, 1 / 10),
   (2 / 5, 64 / 1275),
   (383 / 1275, 1 / 10)]

/-! # Theorems -/

/-! ## The angle condition of the simplifier -/

theorem abs_arccos_sub_pi_lt (x : ℝ) : |Real.arccos x - Real.pi| < Real.pi / 2 ↔ x < 0 := by
  rw [abs_of_nonpos (sub_nonpos.mpr (Real.arccos_le_pi x)), neg_sub, sub_lt_iff_lt_add]
  constructor
  · intro h
    by_contra hx
    have := Real.arccos_le_pi_div_two.mpr (not_lt.mp hx)
    linarith
  · intro hx
    have := not_le.mpr ((Real.arccos_le_pi_div_two (x := x)).not.mpr (not_le.mpr hx) |> not_le.mp)
    linarith

theorem sumsq_pos {a b : ℝ} (h : ¬(a = 0 ∧ b = 0)) : 0 < a * a + b * b := by
  rcases eq_or_ne a 0 with ha | ha
  · rcases eq_or_ne b 0 with hb | hb
    · exact absurd ⟨ha, hb⟩ h
    · nlinarith [sq_nonneg a, sq_nonneg b, mul_self_pos.mpr hb]
  · nlinarith [sq_nonneg a, sq_nonneg b, mul_self_pos.mpr ha]

theorem delCond_half_pi_iff (current_prev current next : Pt)
    (hu : subQ next current ≠ (0, 0)) (hv : subQ current_prev current ≠ (0, 0)) :
    (delCond (Real.pi / 2) current_prev current next ↔
      dotQ (subQ next current) (subQ current_prev current) < 0) := by
  simp only [delCond, angleOf]
  rw [abs_arccos_sub_pi_lt]
  set u1 : ℝ := ((next.1 - current.1 : ℚ) : ℝ) with hu1
  set u2 : ℝ := ((next.2 - current.2 : ℚ) : ℝ) with hu2
  set w1 : ℝ := ((current_prev.1 - current.1 : ℚ) : ℝ) with hw1
  set w2 : ℝ := ((current_prev.2 - current.2 : ℚ) : ℝ) with hw2
  have hune : ¬(u1 = 0 ∧ u2 = 0) := by
    intro ⟨h1, h2⟩
    rw [hu1] at h1
    rw [hu2] at h2
    apply hu
    have e1 : next.1 - current.1 = 0 := by exact_mod_cast h1
    have e2 : next.2 - current.2 = 0 := by exact_mod_cast h2
    simp [subQ, Prod.ext_iff, e1, e2]
  have hwne : ¬(w1 = 0 ∧ w2 = 0) := by
    intro ⟨h1, h2⟩
    rw [hw1] at h1
    rw [hw2] at h2
    apply hv
    have e1 : current_prev.1 - current.1 = 0 := by exact_mod_cast h1
    have e2 : current_prev.2 - current.2 = 0 := by exact_mod_cast h2
    simp [subQ, Prod.ext_iff, e1, e2]
  have hNu : 0 < Real.sqrt (u1 * u1 + u2 * u2) := Real.sqrt_pos.mpr (sumsq_pos hune)
  have hNw : 0 < Real.sqrt (w1 * w1 + w2 * w2) := Real.sqrt_pos.mpr (sumsq_pos hwne)
  have heq : (normalizeV (subV (toR next) (toR current))).1 *
        (normalizeV (subV (toR current_prev) (toR current))).1 +
      (normalizeV (subV (toR next) (toR current))).2 *
        (normalizeV (subV (toR current_prev) (toR current))).2 =
      (u1 * w1 + u2 * w2) /
        (Real.sqrt (u1 * u1 + u2 * u2) * Real.sqrt (w1 * w1 + w2 * w2)) := by
    simp only [normalizeV, subV, toR, hu1, hu2, hw1, hw2]
    push_cast
    field_simp
  rw [heq, div_lt_iff₀ (mul_pos hNu hNw), zero_mul]
  have hd : u1 * w1 + u2 * w2 =
      ((dotQ (subQ next current) (subQ current_prev current) : ℚ) : ℝ) := by
    simp only [hu1, hu2, hw1, hw2, dotQ, subQ]
    push_cast
    ring
  rw [hd]
  exact Rat.cast_lt_zero

theorem delCond_zero_iff (current_prev current next : Pt) :
    ¬ delCond 0 current_prev current next :=
  not_lt.mpr (abs_nonneg _)

theorem delCond_half_pi_self (p : Pt) : ¬ delCond (Real.pi / 2) p p p := by
  rw [delCond]
  have h0 : angleOf p p p = Real.pi / 2 := by
    simp [angleOf, subV, toR, normalizeV, Real.arccos_zero]
  rw [h0, abs_of_nonpos (by linarith [Real.pi_pos])]
  linarith [Real.pi_pos]

/-! ## The marking loop -/

theorem marksAux_nil (eps : ℝ) (c : List Pt) (p : Pt) : marksAux eps c [] p = [] := by
  simp [marksAux]

open Classical in
theorem marksAux_cons (eps : ℝ) (c : List Pt) (i : ℕ) (rest : List ℕ) (p : Pt) :
    marksAux eps c (i :: rest) p =
      if delCond eps p (c.getD i (0, 0)) (c.getD ((i + 1) % c.length) (0, 0)) then
        true :: marksAux eps c rest p
      else
        false :: marksAux eps c rest (c.getD i (0, 0)) := rfl

theorem marksAux_zero (c : List Pt) :
    ∀ (l : List ℕ) (p : Pt), marksAux 0 c l p = l.map (fun _ => false)
  | [], _ => by simp [marksAux]
  | i :: rest, p => by
    rw [marksAux_cons, if_neg (delCond_zero_iff _ _ _)]
    simp [marksAux_zero c rest]

/-- `ε = 0` marks nothing, and the filter keeps only marked points, so the
simplified contour is empty whatever the input. -/
theorem simplify_zero (c : List Pt) : simplify c 0 = [] := by
  simp only [simplify, marksAux_zero]
  have h : (c.zip ((List.range c.length).map (fun _ => false))).filter (fun q => q.2) = [] := by
    rw [List.filter_eq_nil_iff]
    rintro ⟨a, b⟩ hab
    have hb := (List.of_mem_zip hab).2
    simp only [List.mem_map] at hb
    obtain ⟨_, _, rfl⟩ := hb
    simp
  rw [h]
  simp

/-! ## The smoother -/

theorem smoothOnce_length (c : List Pt) : (smoothOnce c).length = c.length := by
  simp [smoothOnce]

theorem smooth_length : ∀ (k : ℕ) (c : List Pt), (smooth c k).length = c.length
  | 0, _ => rfl
  | k + 1, c => by
    show (smooth (smoothOnce c) k).length = c.length
    rw [smooth_length k (smoothOnce c), smoothOnce_length]

theorem smooth_succ_comm : ∀ (k : ℕ) (c : List Pt), smooth c (k + 1) = smoothOnce (smooth c k)
  | 0, _ => rfl
  | k + 1, c => by
    show smooth (smoothOnce c) (k + 1) = smoothOnce (smooth c (k + 1))
    rw [smooth_succ_comm k (smoothOnce c)]
    rfl

theorem smoothOnce_getD (c : List Pt) (i : ℕ) (h : i < c.length) :
    (smoothOnce c).getD i (0, 0) =
      (((c.getD ((i + c.length - 1) % c.length) (0, 0)).1 + (c.getD i (0, 0)).1 +
          (c.getD ((i + 1) % c.length) (0, 0)).1) / 3,
       ((c.getD ((i + c.length - 1) % c.length) (0, 0)).2 + (c.getD i (0, 0)).2 +
          (c.getD ((i + 1) % c.length) (0, 0)).2) / 3) := by
  simp [smoothOnce, List.getD_eq_getElem?_getD, List.getElem?_map, List.getElem?_range, h]

/-! ## Claim theorems: simplifier, smoother, normals -/

/-- C1: false of the code — `Contour::simplify` computes `should_be_deleted`
marks from the `|angle - π| < ε` test, but then filters the contour
*keeping* exactly the marked points (`filter(|(i, _)| should_be_deleted[*i])`,
missing the negation). With `ε = 0` no point is marked, so every point is
removed: on the four-point unit square the output is empty instead of the
unchanged square the claim (and the spec's `ε = 0` clause) requires. -/
theorem claim_C1 : (∀ c : List Pt, simplify c 0 = []) ∧ simplify sq4 0 = [] ∧ sq4.length = 4 :=
  ⟨simplify_zero, simplify_zero sq4, rfl⟩

/-- C9: `Contour::smooth` preserves the length, `k = 0` is the identity,
each pass replaces every point by the unweighted average of itself and
its two cyclic neighbours operating on the previous pass's output, and
smoothing twice with `k = 1` equals smoothing once with `k = 2`. -/
theorem claim_C9 (c : List Pt) (k : ℕ) :
    (smooth c k).length = c.length ∧
    smooth c 0 = c ∧
    smooth c (k + 1) = smoothOnce (smooth c k) ∧
    smooth (smooth c 1) 1 = smooth c 2 ∧
    ∀ i, i < c.length →
      (smoothOnce c).getD i (0, 0) =
        (((c.getD ((i + c.length - 1) % c.length) (0, 0)).1 + (c.getD i (0, 0)).1 +
            (c.getD ((i + 1) % c.length) (0, 0)).1) / 3,
         ((c.getD ((i + c.length - 1) % c.length) (0, 0)).2 + (c.getD i (0, 0)).2 +
            (c.getD ((i + 1) % c.length) (0, 0)).2) / 3) :=
  ⟨smooth_length k c, rfl, smooth_succ_comm k c,
    by rw [smooth_succ_comm 1 c]; rfl,
    fun i h => smoothOnce_getD c i h⟩

/-- C9 witness: the theorem instantiated on a concrete triangle; one
smoothing pass sends every vertex of `[(0,0), (3,0), (0,3)]` to its
centroid `(1,1)`. -/
theorem claim_C9_witness :
    (smoothOnce [((0 : ℚ), (0 : ℚ)), (3, 0), (0, 3)]).getD 0 (0, 0) = (1, 1) ∧
    smooth [((0 : ℚ), (0 : ℚ)), (3, 0), (0, 3)] 1 = [(1, 1), (1, 1), (1, 1)] := by
  have h := (claim_C9 [((0 : ℚ), (0 : ℚ)), (3, 0), (0, 3)] 0).2.2.2.2 0 (by norm_num)
  constructor
  · rw [h]
    norm_num
  · show smoothOnce [((0 : ℚ), (0 : ℚ)), (3, 0), (0, 3)] = [(1, 1), (1, 1), (1, 1)]
    simp only [smoothOnce, List.length_cons, List.length_nil]
    norm_num [List.range_succ]

/-- C4: false of the code — `normal_of_line` returns the *unrotated* unit
edge direction (`(v1 - v0) / len`, no 90-degree rotation), so the stored
side-wall "normal" is the average of the two adjacent unit edge
directions (a tangent), not the average of their 90-degree rotations.
On the unit square at point 1 the code stores `(1/2, 1/2, 0)` while the
spec's formula gives `(1/2, -1/2, 0)` (clockwise rotation) or
`(-1/2, 1/2, 0)` (counter-clockwise). -/
theorem claim_C4 :
    sideNormal sq4 1 = (1 / 2, 1 / 2, 0) ∧
    specSideNormal rotCW sq4 1 = (1 / 2, -(1 / 2), 0) ∧
    specSideNormal rotCCW sq4 1 = (-(1 / 2), 1 / 2, 0) ∧
    ((1 / 2, 1 / 2, 0) : ℝ × ℝ × ℝ) ≠ (1 / 2, -(1 / 2), 0) ∧
    ((1 / 2, 1 / 2, 0) : ℝ × ℝ × ℝ) ≠ (-(1 / 2), 1 / 2, 0) := by
  have h1 : normal_of_line (0 : Pt) (1, 0) = (1, 0) := by
    simp only [normal_of_line, normalizeV, subV, toR, Prod.fst_zero, Prod.snd_zero]
    norm_num
  have h2 : normal_of_line ((1, 0) : Pt) (1 : Pt) = (0, 1) := by
    simp only [normal_of_line, normalizeV, subV, toR, Prod.fst_one, Prod.snd_one]
    norm_num
  refine ⟨?_, ?_, ?_, ?_, ?_⟩
  · simp only [sideNormal, sq4]
    norm_num [h1, h2]
  · simp only [specSideNormal, sq4]
    norm_num [h1, h2, rotCW]
  · simp only [specSideNormal, sq4]
    norm_num [h1, h2, rotCCW]
  · simp only [ne_eq, Prod.ext_iff, not_and]
    intro _ h
    norm_num at h
  · simp only [ne_eq, Prod.ext_iff, not_and]
    intro h
    norm_num at h

/-! ## Tracer invariants -/

theorem getPix_some_bounds {g : Gray} {p : ℤ × ℤ} {v : ℕ} (h : getPix g p = some v) :
    0 ≤ p.1 ∧ p.1 < (g.width : ℤ) ∧ 0 ≤ p.2 ∧ p.2 < (g.height : ℤ) ∧
      g.pix p.1.toNat p.2.toNat = v := by
  by_cases hb : 0 ≤ p.1 ∧ p.1 < (g.width : ℤ) ∧ 0 ≤ p.2 ∧ p.2 < (g.height : ℤ)
  · refine ⟨hb.1, hb.2.1, hb.2.2.1, hb.2.2.2, ?_⟩
    simpa [getPix, hb] using h
  · simp [getPix, hb] at h

theorem getPix_natCast {g : Gray} {x y : ℕ} (hx : x < g.width) (hy : y < g.height) :
    getPix g ((x : ℤ), (y : ℤ)) = some (g.pix x y) := by
  simp [getPix, hx, hy]

theorem stepMove_inv {g : Gray} {threshold : ℕ} {cur : ℤ × ℤ} {d : LookDirection}
    {cd : (ℤ × ℤ) × LookDirection}
    (hInv : TraceInv g threshold cur d)
    (hstep : stepMove g threshold cur d = some cd) :
    TraceInv g threshold cd.1 cd.2 := by
  obtain ⟨⟨v0, hv0, hv0le⟩, v1, hv1, hv1gt⟩ := hInv
  cases d
  case Right =>
    simp only [comparisonPoint] at hv1
    simp only [stepMove] at hstep
    cases hr1 : getPix g (cur.1 + 1, cur.2 + 1) with
    | none => rw [hr1] at hstep; exact absurd hstep (by simp)
    | some a =>
      rw [hr1] at hstep
      dsimp only at hstep
      by_cases ha : a ≤ threshold
      · rw [if_pos ha] at hstep
        obtain rfl := Option.some_inj.mp hstep
        refine ⟨⟨a, hr1, ha⟩, v1, ?_, hv1gt⟩
        simp only [comparisonPoint]
        rw [show (cur.1 + 1 - 1 : ℤ) = cur.1 from by ring]
        exact hv1
      · rw [if_neg ha] at hstep
        cases hr2 : getPix g (cur.1 + 1, cur.2) with
        | none => rw [hr2] at hstep; exact absurd hstep (by simp)
        | some b =>
          rw [hr2] at hstep
          dsimp only at hstep
          by_cases hb : b ≤ threshold
          · rw [if_pos hb] at hstep
            obtain rfl := Option.some_inj.mp hstep
            exact ⟨⟨b, hr2, hb⟩, a, hr1, not_le.mp ha⟩
          · rw [if_neg hb] at hstep
            obtain rfl := Option.some_inj.mp hstep
            exact ⟨⟨v0, hv0, hv0le⟩, b, hr2, not_le.mp hb⟩
  case Down =>
    simp only [comparisonPoint] at hv1
    simp only [stepMove] at hstep
    cases hr1 : getPix g (cur.1 - 1, cur.2 + 1) with
    | none => rw [hr1] at hstep; exact absurd hstep (by simp)
    | some a =>
      rw [hr1] at hstep
      dsimp only at hstep
      by_cases ha : a ≤ threshold
      · rw [if_pos ha] at hstep
        obtain rfl := Option.some_inj.mp hstep
        refine ⟨⟨a, hr1, ha⟩, v1, ?_, hv1gt⟩
        simp only [comparisonPoint]
        rw [show (cur.2 + 1 - 1 : ℤ) = cur.2 from by ring]
        exact hv1
      · rw [if_neg ha] at hstep
        cases hr2 : getPix g (cur.1, cur.2 + 1) with
        | none => rw [hr2] at hstep; exact absurd hstep (by simp)
        | some b =>
          rw [hr2] at hstep
          dsimp only at hstep
          by_cases hb : b ≤ threshold
          · rw [if_pos hb] at hstep
            obtain rfl := Option.some_inj.mp hstep
            exact ⟨⟨b, hr2, hb⟩, a, hr1, not_le.mp ha⟩
          · rw [if_neg hb] at hstep
            obtain rfl := Option.some_inj.mp hstep
            exact ⟨⟨v0, hv0, hv0le⟩, b, hr2, not_le.mp hb⟩
  case Left =>
    simp only [comparisonPoint] at hv1
    simp only [stepMove] at hstep
    cases hr1 : getPix g (cur.1 - 1, cur.2 - 1) with
    | none => rw [hr1] at hstep; exact absurd hstep (by simp)
    | some a =>
      rw [hr1] at hstep
      dsimp only at hstep
      by_cases ha : a ≤ threshold
      · rw [if_pos ha] at hstep
        obtain rfl := Option.some_inj.mp hstep
        refine ⟨⟨a, hr1, ha⟩, v1, ?_, hv1gt⟩
        simp only [comparisonPoint]
        rw [show (cur.1 - 1 + 1 : ℤ) = cur.1 from by ring]
        exact hv1
      · rw [if_neg ha] at hstep
        cases hr2 : getPix g (cur.1 - 1, cur.2) with
        | none => rw [hr2] at hstep; exact absurd hstep (by simp)
        | some b =>
          rw [hr2] at hstep
          dsimp only at hstep
          by_cases hb : b ≤ threshold
          · rw [if_pos hb] at hstep
            obtain rfl := Option.some_inj.mp hstep
            exact ⟨⟨b, hr2, hb⟩, a, hr1, not_le.mp ha⟩
          · rw [if_neg hb] at hstep
            obtain rfl := Option.some_inj.mp hstep
            exact ⟨⟨v0, hv0, hv0le⟩, b, hr2, not_le.mp hb⟩
  case Up =>
    simp only [comparisonPoint] at hv1
    simp only [stepMove] at hstep
    cases hr1 : getPix g (cur.1 + 1, cur.2 - 1) with
    | none => rw [hr1] at hstep; exact absurd hstep (by simp)
    | some a =>
      rw [hr1] at hstep
      dsimp only at hstep
      by_cases ha : a ≤ threshold
      · rw [if_pos ha] at hstep
        obtain rfl := Option.some_inj.mp hstep
        refine ⟨⟨a, hr1, ha⟩, v1, ?_, hv1gt⟩
        simp only [comparisonPoint]
        rw [show (cur.2 - 1 + 1 : ℤ) = cur.2 from by ring]
        exact hv1
      · rw [if_neg ha] at hstep
        cases hr2 : getPix g (cur.1, cur.2 - 1) with
        | none => rw [hr2] at hstep; exact absurd hstep (by simp)
        | some b =>
          rw [hr2] at hstep
          dsimp only at hstep
          by_cases hb : b ≤ threshold
          · rw [if_pos hb] at hstep
            obtain rfl := Option.some_inj.mp hstep
            exact ⟨⟨b, hr2, hb⟩, a, hr1, not_le.mp ha⟩
          · rw [if_neg hb] at hstep
            obtain rfl := Option.some_inj.mp hstep
            exact ⟨⟨v0, hv0, hv0le⟩, b, hr2, not_le.mp hb⟩

theorem traceAux_zero (g : Gray) (threshold : ℕ) (start cur : ℤ × ℤ) (d : LookDirection)
    (acc : List Pt) : traceAux g threshold start 0 cur d acc = .errNonTerm := rfl

theorem traceAux_succ (g : Gray) (threshold : ℕ) (start cur : ℤ × ℤ) (d : LookDirection)
    (acc : List Pt) (n : ℕ) :
    traceAux g threshold start (n + 1) cur d acc =
      if acc.length > 0 ∧ cur = start then .ok acc
      else
        match getPix g cur, getPix g (comparisonPoint cur d) with
        | some v0, some v1 =>
          match stepMove g threshold cur d with
          | some cd =>
            traceAux g threshold start n cd.1 cd.2
              (acc ++ [emitPoint cur (comparisonPoint cur d) v0 v1 threshold])
          | none => .panic
        | _, _ => .panic := rfl

theorem traceAux_ok_facts {g : Gray} {threshold : ℕ} {start : ℤ × ℤ} :
    ∀ (fuel : ℕ) (cur : ℤ × ℤ) (d : LookDirection) (acc c : List Pt),
      traceAux g threshold start fuel cur d acc = .ok c →
      0 < c.length ∧ c.length ≤ acc.length + fuel := by
  intro fuel
  induction fuel with
  | zero =>
    intro cur d acc c h
    rw [traceAux_zero] at h
    simp at h
  | succ n ih =>
    intro cur d acc c h
    rw [traceAux_succ] at h
    by_cases hclose : acc.length > 0 ∧ cur = start
    · rw [if_pos hclose] at h
      obtain rfl : acc = c := by injection h
      exact ⟨hclose.1, by omega⟩
    · rw [if_neg hclose] at h
      cases h0 : getPix g cur with
      | none =>
        rw [h0] at h
        cases h1 : getPix g (comparisonPoint cur d) <;> rw [h1] at h <;> simp at h
      | some v0 =>
        rw [h0] at h
        cases h1 : getPix g (comparisonPoint cur d) with
        | none => rw [h1] at h; simp at h
        | some v1 =>
          rw [h1] at h
          dsimp only at h
          cases hs : stepMove g threshold cur d with
          | none => rw [hs] at h; simp at h
          | some cd =>
            rw [hs] at h
            dsimp only at h
            obtain ⟨h01, h02⟩ := ih cd.1 cd.2 _ c h
            refine ⟨h01, ?_⟩
            simp only [List.length_append, List.length_cons, List.length_nil] at h02
            omega

theorem traceAux_ne_noStart {g : Gray} {threshold : ℕ} {start : ℤ × ℤ} :
    ∀ (fuel : ℕ) (cur : ℤ × ℤ) (d : LookDirection) (acc : List Pt),
      traceAux g threshold start fuel cur d acc ≠ .errNoStart := by
  intro fuel
  induction fuel with
  | zero =>
    intro cur d acc h
    rw [traceAux_zero] at h
    simp at h
  | succ n ih =>
    intro cur d acc h
    rw [traceAux_succ] at h
    by_cases hclose : acc.length > 0 ∧ cur = start
    · rw [if_pos hclose] at h
      simp at h
    · rw [if_neg hclose] at h
      cases h0 : getPix g cur with
      | none =>
        rw [h0] at h
        cases h1 : getPix g (comparisonPoint cur d) <;> rw [h1] at h <;> simp at h
      | some v0 =>
        rw [h0] at h
        cases h1 : getPix g (comparisonPoint cur d) with
        | none => rw [h1] at h; simp at h
        | some v1 =>
          rw [h1] at h
          dsimp only at h
          cases hs : stepMove g threshold cur d with
          | none => rw [hs] at h; simp at h
          | some cd =>
            rw [hs] at h
            dsimp only at h
            exact ih cd.1 cd.2 _ h

theorem traceAux_ok_points {g : Gray} {threshold : ℕ} {start : ℤ × ℤ} :
    ∀ (fuel : ℕ) (cur : ℤ × ℤ) (d : LookDirection) (acc c : List Pt),
      TraceInv g threshold cur d →
      (∀ p ∈ acc, GoodPoint g threshold p) →
      traceAux g threshold start fuel cur d acc = .ok c →
      ∀ p ∈ c, GoodPoint g threshold p := by
  intro fuel
  induction fuel with
  | zero =>
    intro cur d acc c _ _ h
    rw [traceAux_zero] at h
    simp at h
  | succ n ih =>
    intro cur d acc c hInv hacc h
    rw [traceAux_succ] at h
    by_cases hclose : acc.length > 0 ∧ cur = start
    · rw [if_pos hclose] at h
      obtain rfl : acc = c := by injection h
      exact hacc
    · rw [if_neg hclose] at h
      obtain ⟨⟨v0, hv0, hv0le⟩, v1, hv1, hv1gt⟩ := hInv
      rw [hv0, hv1] at h
      dsimp only at h
      cases hs : stepMove g threshold cur d with
      | none => rw [hs] at h; simp at h
      | some cd =>
        rw [hs] at h
        dsimp only at h
        refine ih cd.1 cd.2 _ c
          (stepMove_inv ⟨⟨v0, hv0, hv0le⟩, v1, hv1, hv1gt⟩ hs) ?_ h
        intro p hp
        rcases List.mem_append.mp hp with hp | hp
        · exact hacc p hp
        · rw [List.mem_singleton.mp hp]
          exact ⟨cur, d, v0, v1, hv0, hv0le, hv1, hv1gt, rfl⟩

theorem stepMove_interior {g : Gray} {threshold : ℕ} (hint : interiorOnly g threshold)
    {cur : ℤ × ℤ} {d : LookDirection} (hInv : TraceInv g threshold cur d) :
    ∃ cd, stepMove g threshold cur d = some cd := by
  obtain ⟨⟨v0, hv0, hv0le⟩, _⟩ := hInv
  obtain ⟨hx0, hxw, hy0, hyh, hpix⟩ := getPix_some_bounds hv0
  have hxn : cur.1.toNat < g.width := by omega
  have hyn : cur.2.toNat < g.height := by omega
  obtain ⟨ha1, ha2, hb1, hb2⟩ :=
    hint cur.1.toNat hxn cur.2.toNat hyn (hpix ▸ hv0le)
  have hread : ∀ a b : ℤ, 0 ≤ a → a < (g.width : ℤ) → 0 ≤ b → b < (g.height : ℤ) →
      ∃ u, getPix g (a, b) = some u := by
    intro a b h1 h2 h3 h4
    exact ⟨g.pix a.toNat b.toNat, by simp [getPix, h1, h2, h3, h4]⟩
  cases d
  case Right =>
    obtain ⟨u1, hu1⟩ := hread (cur.1 + 1) (cur.2 + 1) (by omega) (by omega) (by omega) (by omega)
    rcases le_or_lt u1 threshold with h1 | h1
    · exact ⟨((cur.1 + 1, cur.2 + 1), LookDirection.Down), by simp only [stepMove, hu1, if_pos h1]⟩
    · obtain ⟨u2, hu2⟩ := hread (cur.1 + 1) cur.2 (by omega) (by omega) (by omega) (by omega)
      rcases le_or_lt u2 threshold with h2 | h2
      · exact ⟨((cur.1 + 1, cur.2), LookDirection.Right), by simp only [stepMove, hu1, hu2, if_neg (not_le.mpr h1), if_pos h2]⟩
      · exact ⟨(cur, LookDirection.Up), by
          simp only [stepMove, hu1, hu2, if_neg (not_le.mpr h1), if_neg (not_le.mpr h2)]⟩
  case Down =>
    obtain ⟨u1, hu1⟩ := hread (cur.1 - 1) (cur.2 + 1) (by omega) (by omega) (by omega) (by omega)
    rcases le_or_lt u1 threshold with h1 | h1
    · exact ⟨((cur.1 - 1, cur.2 + 1), LookDirection.Left), by simp only [stepMove, hu1, if_pos h1]⟩
    · obtain ⟨u2, hu2⟩ := hread cur.1 (cur.2 + 1) (by omega) (by omega) (by omega) (by omega)
      rcases le_or_lt u2 threshold with h2 | h2
      · exact ⟨((cur.1, cur.2 + 1), LookDirection.Down), by simp only [stepMove, hu1, hu2, if_neg (not_le.mpr h1), if_pos h2]⟩
      · exact ⟨(cur, LookDirection.Right), by
          simp only [stepMove, hu1, hu2, if_neg (not_le.mpr h1), if_neg (not_le.mpr h2)]⟩
  case Left =>
    obtain ⟨u1, hu1⟩ := hread (cur.1 - 1) (cur.2 - 1) (by omega) (by omega) (by omega) (by omega)
    rcases le_or_lt u1 threshold with h1 | h1
    · exact ⟨((cur.1 - 1, cur.2 - 1), LookDirection.Up), by simp only [stepMove, hu1, if_pos h1]⟩
    · obtain ⟨u2, hu2⟩ := hread (cur.1 - 1) cur.2 (by omega) (by omega) (by omega) (by omega)
      rcases le_or_lt u2 threshold with h2 | h2
      · exact ⟨((cur.1 - 1, cur.2), LookDirection.Left), by simp only [stepMove, hu1, hu2, if_neg (not_le.mpr h1), if_pos h2]⟩
      · exact ⟨(cur, LookDirection.Down), by
          simp only [stepMove, hu1, hu2, if_neg (not_le.mpr h1), if_neg (not_le.mpr h2)]⟩
  case Up =>
    obtain ⟨u1, hu1⟩ := hread (cur.1 + 1) (cur.2 - 1) (by omega) (by omega) (by omega) (by omega)
    rcases le_or_lt u1 threshold with h1 | h1
    · exact ⟨((cur.1 + 1, cur.2 - 1), LookDirection.Right), by simp only [stepMove, hu1, if_pos h1]⟩
    · obtain ⟨u2, hu2⟩ := hread cur.1 (cur.2 - 1) (by omega) (by omega) (by omega) (by omega)
      rcases le_or_lt u2 threshold with h2 | h2
      · exact ⟨((cur.1, cur.2 - 1), LookDirection.Up), by simp only [stepMove, hu1, hu2, if_neg (not_le.mpr h1), if_pos h2]⟩
      · exact ⟨(cur, LookDirection.Left), by
          simp only [stepMove, hu1, hu2, if_neg (not_le.mpr h1), if_neg (not_le.mpr h2)]⟩

theorem traceAux_no_panic {g : Gray} {threshold : ℕ} {start : ℤ × ℤ}
    (hint : interiorOnly g threshold) :
    ∀ (fuel : ℕ) (cur : ℤ × ℤ) (d : LookDirection) (acc : List Pt),
      TraceInv g threshold cur d →
      traceAux g threshold start fuel cur d acc ≠ .panic := by
  intro fuel
  induction fuel with
  | zero =>
    intro cur d acc _ h
    rw [traceAux_zero] at h
    simp at h
  | succ n ih =>
    intro cur d acc hInv h
    rw [traceAux_succ] at h
    by_cases hclose : acc.length > 0 ∧ cur = start
    · rw [if_pos hclose] at h
      simp at h
    · rw [if_neg hclose] at h
      obtain ⟨⟨v0, hv0, hv0le⟩, v1, hv1, hv1gt⟩ := hInv
      rw [hv0, hv1] at h
      dsimp only at h
      obtain ⟨cd, hs⟩ := stepMove_interior hint ⟨⟨v0, hv0, hv0le⟩, v1, hv1, hv1gt⟩
      rw [hs] at h
      dsimp only at h
      exact ih cd.1 cd.2 _ (stepMove_inv ⟨⟨v0, hv0, hv0le⟩, v1, hv1, hv1gt⟩ hs) h

/-! ## The start-point search -/

theorem mem_scanList {g : Gray} {q : ℕ × ℕ} :
    q ∈ scanList g ↔ q.1 < g.width ∧ q.2 < g.height := by
  rcases q with ⟨x, y⟩
  simp only [scanList, List.mem_flatMap, List.mem_map, List.mem_range, Prod.mk.injEq]
  constructor
  · rintro ⟨y', hy', x', hx', rfl, rfl⟩
    exact ⟨hx', hy'⟩
  · rintro ⟨hx, hy⟩
    exact ⟨y, hy, x, hx, rfl, rfl⟩

theorem findStart_some_spec {g : Gray} {threshold : ℕ} {s : ℕ × ℕ}
    (h : findStart g threshold = some s) :
    s.1 < g.width ∧ s.2 < g.height ∧ s.2 ≠ g.height - 1 ∧
      g.pix s.1 s.2 ≤ threshold ∧ threshold < g.pix s.1 (s.2 + 1) := by
  have hmem := mem_scanList.mp (List.mem_of_find?_eq_some h)
  have hp := List.find?_some h
  simp only [startCond, Bool.and_eq_true, decide_eq_true_eq] at hp
  exact ⟨hmem.1, hmem.2, hp.1.1, hp.1.2, hp.2⟩

theorem start_TraceInv {g : Gray} {threshold : ℕ} {s : ℕ × ℕ}
    (h : findStart g threshold = some s) :
    TraceInv g threshold ((s.1 : ℤ), (s.2 : ℤ)) .Right := by
  obtain ⟨hx, hy, hne, hle, hgt⟩ := findStart_some_spec h
  have hy1 : s.2 + 1 < g.height := by omega
  refine ⟨⟨g.pix s.1 s.2, getPix_natCast hx hy, hle⟩,
    g.pix s.1 (s.2 + 1), ?_, hgt⟩
  simp only [comparisonPoint]
  rw [show ((s.1 : ℤ), (s.2 : ℤ) + 1) = ((s.1 : ℤ), ((s.2 + 1 : ℕ) : ℤ)) from by push_cast; rfl]
  exact getPix_natCast hx hy1

/-! ## Top-level tracer facts -/

theorem find_contour_ok_good {g : Gray} {threshold : ℕ} {c : List Pt}
    (h : find_contour_from_grayscale g threshold = .ok c) :
    ∀ p ∈ c, GoodPoint g threshold p := by
  unfold find_contour_from_grayscale at h
  cases hfs : findStart g threshold with
  | none => rw [hfs] at h; simp at h
  | some s =>
    rw [hfs] at h
    dsimp only at h
    exact traceAux_ok_points _ _ _ _ c (start_TraceInv hfs) (by simp) h

theorem find_contour_ok_length {g : Gray} {threshold : ℕ} {c : List Pt}
    (h : find_contour_from_grayscale g threshold = .ok c) :
    0 < c.length ∧ c.length ≤ g.width * g.height := by
  unfold find_contour_from_grayscale at h
  cases hfs : findStart g threshold with
  | none => rw [hfs] at h; simp at h
  | some s =>
    rw [hfs] at h
    dsimp only at h
    have := traceAux_ok_facts _ _ _ _ c h
    simpa using this

theorem find_contour_no_panic {g : Gray} {threshold : ℕ} (hint : interiorOnly g threshold) :
    find_contour_from_grayscale g threshold ≠ .panic := by
  unfold find_contour_from_grayscale
  cases hfs : findStart g threshold with
  | none => simp
  | some s =>
    dsimp only
    exact traceAux_no_panic hint _ _ _ _ (start_TraceInv hfs)

theorem find_contour_noStart_iff {g : Gray} {threshold : ℕ} :
    find_contour_from_grayscale g threshold = .errNoStart ↔ findStart g threshold = none := by
  unfold find_contour_from_grayscale
  cases hfs : findStart g threshold with
  | none => simp
  | some s =>
    dsimp only
    constructor
    · intro h
      exact absurd h (traceAux_ne_noStart _ _ _ _)
    · intro h
      cases h

theorem findStart_none_iff {g : Gray} {threshold : ℕ} :
    findStart g threshold = none ↔
      ¬ ∃ x y, x < g.width ∧ y + 1 < g.height ∧
        g.pix x y ≤ threshold ∧ threshold < g.pix x (y + 1) := by
  rw [findStart, List.find?_eq_none]
  constructor
  · rintro hall ⟨x, y, hx, hy1, hle, hgt⟩
    have hmem : (x, y) ∈ scanList g := mem_scanList.mpr ⟨hx, by omega⟩
    have := hall (x, y) hmem
    simp only [startCond, Bool.and_eq_true, decide_eq_true_eq] at this
    exact this ⟨⟨by omega, hle⟩, hgt⟩
  · intro hno q hq hcond
    obtain ⟨hx, hy⟩ := mem_scanList.mp hq
    simp only [startCond, Bool.and_eq_true, decide_eq_true_eq] at hcond
    exact hno ⟨q.1, q.2, hx, by omega, hcond.1.2, hcond.2⟩

/-! ## Row-major first-match facts for the start scan -/

theorem find?_row_first (p : ℕ × ℕ → Bool) (y : ℕ) :
    ∀ (w : ℕ) (q : ℕ × ℕ), ((List.range w).map (fun x => (x, y))).find? p = some q →
      q.2 = y ∧ q.1 < w ∧ p q = true ∧ ∀ x', x' < w → p (x', y) = true → q.1 ≤ x' := by
  intro w
  induction w with
  | zero =>
    intro q h
    simp at h
  | succ n ih =>
    intro q h
    rw [List.range_succ, List.map_append, List.find?_append] at h
    cases hfl : ((List.range n).map (fun x => (x, y))).find? p with
    | some q' =>
      rw [hfl] at h
      simp only [Option.or] at h
      have he : q' = q := by injection h
      subst he
      obtain ⟨h1, h2, h3, h4⟩ := ih q' hfl
      refine ⟨h1, by omega, h3, ?_⟩
      intro x' hx' hp
      by_cases hlt : x' < n
      · exact h4 x' hlt hp
      · omega
    | none =>
      rw [hfl, Option.none_or] at h
      by_cases hp : p (n, y) = true
      · rw [List.map_cons, List.map_nil, List.find?_cons_of_pos _ hp] at h
        obtain rfl : (n, y) = q := by injection h
        refine ⟨rfl, by omega, hp, ?_⟩
        intro x' hx' hpx
        by_cases hlt : x' < n
        · have hm : (x', y) ∈ (List.range n).map (fun x => (x, y)) := by
            simp only [List.mem_map, List.mem_range]
            exact ⟨x', hlt, rfl⟩
          exact absurd hpx (List.find?_eq_none.mp hfl (x', y) hm)
        · omega
      · rw [List.map_cons, List.map_nil, List.find?_cons_of_neg _ hp] at h
        simp at h

theorem mem_scanListN {w h : ℕ} {q : ℕ × ℕ} :
    q ∈ scanListN w h ↔ q.1 < w ∧ q.2 < h := by
  rcases q with ⟨x, y⟩
  simp only [scanListN, List.mem_flatMap, List.mem_map, List.mem_range, Prod.mk.injEq]
  constructor
  · rintro ⟨y', hy', x', hx', rfl, rfl⟩
    exact ⟨hx', hy'⟩
  · rintro ⟨hx, hy⟩
    exact ⟨y, hy, x, hx, rfl, rfl⟩

theorem find?_scanListN_first (p : ℕ × ℕ → Bool) :
    ∀ (h w : ℕ) (q : ℕ × ℕ), (scanListN w h).find? p = some q →
      q.1 < w ∧ q.2 < h ∧ p q = true ∧
        ∀ x y, x < w → y < h → p (x, y) = true → q.2 < y ∨ (q.2 = y ∧ q.1 ≤ x) := by
  intro h
  induction h with
  | zero =>
    intro w q hq
    simp [scanListN] at hq
  | succ n ih =>
    intro w q hq
    have hsplit : scanListN w (n + 1) =
        scanListN w n ++ (List.range w).map (fun x => (x, n)) := by
      rw [scanListN, List.range_succ, List.flatMap_append]
      simp [scanListN]
    rw [hsplit, List.find?_append] at hq
    cases hfl : (scanListN w n).find? p with
    | some q' =>
      rw [hfl] at hq
      simp only [Option.or] at hq
      have he : q' = q := by injection hq
      subst he
      obtain ⟨h1, h2, h3, h4⟩ := ih w q' hfl
      refine ⟨h1, by omega, h3, ?_⟩
      intro x y hx hy hp
      rcases Nat.lt_succ_iff_lt_or_eq.mp hy with hy' | rfl
      · exact h4 x y hx hy' hp
      · left
        omega
    | none =>
      rw [hfl, Option.none_or] at hq
      obtain ⟨hq2, hq1, hp, hmin⟩ := find?_row_first p n w q hq
      refine ⟨hq1, by omega, hp, ?_⟩
      intro x y hx hy hpxy
      rcases Nat.lt_succ_iff_lt_or_eq.mp hy with hy' | rfl
      · have hm : (x, y) ∈ scanListN w n := mem_scanListN.mpr ⟨hx, hy'⟩
        exact absurd hpxy (List.find?_eq_none.mp hfl (x, y) hm)
      · right
        exact ⟨hq2, hmin x hx hpxy⟩

theorem findStart_first {g : Gray} {threshold : ℕ} {s : ℕ × ℕ}
    (h : findStart g threshold = some s) :
    ∀ x y, x < g.width → y < g.height → startCond g threshold (x, y) = true →
      s.2 < y ∨ (s.2 = y ∧ s.1 ≤ x) := by
  have hs : (scanListN g.width g.height).find? (startCond g threshold) = some s := h
  exact (find?_scanListN_first (startCond g threshold) g.height g.width s hs).2.2.2

/-! ## Emitted-point algebra -/

theorem emitPoint_eq_mirror (cur cmp : ℤ × ℤ) (v0 v1 threshold : ℕ) :
    emitPoint cur cmp v0 v1 threshold =
      ((cmp.1 : ℚ) + ((v0 : ℚ) - threshold) / (((v0 : ℚ) - threshold) - ((v1 : ℚ) - threshold)) *
          ((cur.1 : ℚ) - (cmp.1 : ℚ)),
       (cmp.2 : ℚ) + ((v0 : ℚ) - threshold) / (((v0 : ℚ) - threshold) - ((v1 : ℚ) - threshold)) *
          ((cur.2 : ℚ) - (cmp.2 : ℚ))) := by
  simp only [emitPoint, Prod.ext_iff]
  constructor <;> ring

/-- C3 (amended): every point emitted by the tracer is the interpolation
`comparison + t * (current - comparison)` — weight `t` on the *current*
coordinate — not `current + t * (comparison - current)` as the spec says. -/
theorem claim_C3 (g : Gray) (threshold : ℕ) (c : List Pt) (p : Pt)
    (hok : find_contour_from_grayscale g threshold = .ok c) (hp : p ∈ c) :
    ∃ cur d v0 v1,
      getPix g cur = some v0 ∧ v0 ≤ threshold ∧
      getPix g (comparisonPoint cur d) = some v1 ∧ threshold < v1 ∧
      p = emitPoint cur (comparisonPoint cur d) v0 v1 threshold ∧
      p = (((comparisonPoint cur d).1 : ℚ) +
            ((v0 : ℚ) - threshold) / (((v0 : ℚ) - threshold) - ((v1 : ℚ) - threshold)) *
              ((cur.1 : ℚ) - ((comparisonPoint cur d).1 : ℚ)),
           ((comparisonPoint cur d).2 : ℚ) +
            ((v0 : ℚ) - threshold) / (((v0 : ℚ) - threshold) - ((v1 : ℚ) - threshold)) *
              ((cur.2 : ℚ) - ((comparisonPoint cur d).2 : ℚ))) := by
  obtain ⟨cur, d, v0, v1, h1, h2, h3, h4, h5⟩ := find_contour_ok_good hok p hp
  exact ⟨cur, d, v0, v1, h1, h2, h3, h4, h5, by rw [h5, emitPoint_eq_mirror]⟩

/-- C3 witness: the amended theorem applied to the single-cell image. -/
theorem claim_C3_witness :
    ∃ cur d v0 v1,
      getPix img4 cur = some v0 ∧ v0 ≤ 128 ∧
      getPix img4 (comparisonPoint cur d) = some v1 ∧ 128 < v1 ∧
      emitPoint (1, 1) (1, 2) 0 255 128 =
        emitPoint cur (comparisonPoint cur d) v0 v1 128 ∧
      emitPoint (1, 1) (1, 2) 0 255 128 =
        (((comparisonPoint cur d).1 : ℚ) +
          ((v0 : ℚ) - 128) / (((v0 : ℚ) - 128) - ((v1 : ℚ) - 128)) *
            ((cur.1 : ℚ) - ((comparisonPoint cur d).1 : ℚ)),
         ((comparisonPoint cur d).2 : ℚ) +
          ((v0 : ℚ) - 128) / (((v0 : ℚ) - 128) - ((v1 : ℚ) - 128)) *
            ((cur.2 : ℚ) - ((comparisonPoint cur d).2 : ℚ))) :=
  claim_C3 img4 128 [emitPoint (1, 1) (1, 2) 0 255 128]
    (emitPoint (1, 1) (1, 2) 0 255 128) rfl (List.mem_singleton.mpr rfl)

/-- C3 counterexample: on the single-cell image the emitted point is
`(1, 382/255)`, while the spec's formula `current + t * (comparison -
current)` gives `(1, 383/255)` — the two interpolation conventions
disagree whenever `t ≠ 1/2`. -/
theorem claim_C3_counterexample :
    find_contour_from_grayscale img4 128 = .ok [emitPoint (1, 1) (1, 2) 0 255 128] ∧
    emitPoint (1, 1) (1, 2) 0 255 128 = (1, 382 / 255) ∧
    specInterpPoint (1, 1) (1, 2) 0 255 128 = (1, 383 / 255) ∧
    ((1 : ℚ), (382 : ℚ) / 255) ≠ ((1 : ℚ), (383 : ℚ) / 255) := by
  refine ⟨rfl, by norm_num [emitPoint], by norm_num [specInterpPoint], ?_⟩
  simp only [ne_eq, Prod.mk.injEq, true_and]
  norm_num

/-- C6: at every step that emits a contour point the current cell is at
or below the threshold and the comparison cell strictly above it, so the
interpolation denominator `outside_val - inside_val = v0 - v1` is
strictly negative: the division is never `0/0`, the claim's
"both cells exactly at the threshold" situation is unreachable, and no
NaN can enter an emitted contour point. -/
theorem claim_C6 (g : Gray) (threshold : ℕ) (c : List Pt) (p : Pt)
    (hok : find_contour_from_grayscale g threshold = .ok c) (hp : p ∈ c) :
    ∃ cur d v0 v1,
      getPix g cur = some v0 ∧ getPix g (comparisonPoint cur d) = some v1 ∧
      p = emitPoint cur (comparisonPoint cur d) v0 v1 threshold ∧
      ((v0 : ℚ) - threshold) - ((v1 : ℚ) - threshold) < 0 := by
  obtain ⟨cur, d, v0, v1, h1, h2, h3, h4, h5⟩ := find_contour_ok_good hok p hp
  refine ⟨cur, d, v0, v1, h1, h3, h5, ?_⟩
  have hlt : v0 < v1 := lt_of_le_of_lt h2 h4
  have hq : (v0 : ℚ) < (v1 : ℚ) := by exact_mod_cast hlt
  linarith

/-- C6 witness: the theorem applied to the single-cell image. -/
theorem claim_C6_witness :
    ∃ cur d v0 v1,
      getPix img4 cur = some v0 ∧ getPix img4 (comparisonPoint cur d) = some v1 ∧
      emitPoint (1, 1) (1, 2) 0 255 128 =
        emitPoint cur (comparisonPoint cur d) v0 v1 128 ∧
      ((v0 : ℚ) - 128) - ((v1 : ℚ) - 128) < 0 :=
  claim_C6 img4 128 [emitPoint (1, 1) (1, 2) 0 255 128]
    (emitPoint (1, 1) (1, 2) 0 255 128) rfl (List.mem_singleton.mpr rfl)

/-- C7 (amended): an `ok` result of the tracer holds between 1 and
`width * height` points (the loop is capped at `width * height`
iterations, each pushing one point), and exhausted fuel yields exactly
the non-terminating-trace error; but the loop can also end in a panic
(see the counterexample), which the claim's Ok-or-error dichotomy
omits. -/
theorem claim_C7 (g : Gray) (threshold : ℕ) :
    (∀ c, find_contour_from_grayscale g threshold = .ok c →
      0 < c.length ∧ c.length ≤ g.width * g.height) ∧
    (∀ (start cur : ℤ × ℤ) (d : LookDirection) (acc : List Pt),
      traceAux g threshold start 0 cur d acc = .errNonTerm) :=
  ⟨fun _ h => find_contour_ok_length h, fun _ _ _ _ => rfl⟩

/-- C7 witness: the theorem applied to the single-cell image, whose trace
closes after one emission. -/
theorem claim_C7_witness :
    0 < ([emitPoint (1, 1) (1, 2) 0 255 128] : List Pt).length ∧
    ([emitPoint (1, 1) (1, 2) 0 255 128] : List Pt).length ≤ img4.width * img4.height :=
  (claim_C7 img4 128).1 [emitPoint (1, 1) (1, 2) 0 255 128] rfl

/-- C7 counterexample: a dark bar reaching the right image border makes
the tracer read out of bounds and panic — the trace neither closes with
`Ok` nor returns the non-terminating-trace error. -/
theorem claim_C7_counterexample :
    find_contour_from_grayscale imgRightB 128 = .panic := rfl

/-- C8 (amended): the tracer fails with the no-boundary error exactly
when no cell outside the last row is `≤ threshold` with the cell below
it `> threshold`; when such cells exist, it starts at the first one in
row-major scan order. (A mixed field whose only vertical transitions go
dark-over-light also fails — the failure is *not* equivalent to the
field being uniformly above or below the threshold.) -/
theorem claim_C8 (g : Gray) (threshold : ℕ) :
    (find_contour_from_grayscale g threshold = .errNoStart ↔
      ¬ ∃ x y, x < g.width ∧ y + 1 < g.height ∧
        g.pix x y ≤ threshold ∧ threshold < g.pix x (y + 1)) ∧
    (∀ s, findStart g threshold = some s →
      (s.1 < g.width ∧ s.2 + 1 < g.height ∧
        g.pix s.1 s.2 ≤ threshold ∧ threshold < g.pix s.1 (s.2 + 1)) ∧
      ∀ x y, x < g.width → y + 1 < g.height →
        g.pix x y ≤ threshold → threshold < g.pix x (y + 1) →
        s.2 < y ∨ (s.2 = y ∧ s.1 ≤ x)) := by
  constructor
  · rw [find_contour_noStart_iff, findStart_none_iff]
  · intro s hs
    obtain ⟨hx, hy, hne, hle, hgt⟩ := findStart_some_spec hs
    refine ⟨⟨hx, by omega, hle, hgt⟩, ?_⟩
    intro x y hx' hy' hle' hgt'
    refine findStart_first hs x y hx' (by omega) ?_
    simp only [startCond, Bool.and_eq_true, decide_eq_true_eq]
    exact ⟨⟨by omega, hle'⟩, hgt'⟩

/-- C8 witness: on the single-cell image the start search returns `(1, 1)`
and it is a vertical crossing. -/
theorem claim_C8_witness :
    ((1, 1) : ℕ × ℕ).1 < img4.width ∧ ((1, 1) : ℕ × ℕ).2 + 1 < img4.height ∧
    img4.pix ((1, 1) : ℕ × ℕ).1 ((1, 1) : ℕ × ℕ).2 ≤ 128 ∧
    128 < img4.pix ((1, 1) : ℕ × ℕ).1 (((1, 1) : ℕ × ℕ).2 + 1) :=
  ((claim_C8 img4 128).2 (1, 1) rfl).1

/-- C8 counterexample: a 1×2 field with 200 above 100 has no downward
crossing, so the tracer fails with the no-boundary error, yet the field
is neither uniformly above nor uniformly below the threshold 128. -/
theorem claim_C8_counterexample :
    find_contour_from_grayscale img12 128 = .errNoStart ∧
    128 < img12.pix 0 0 ∧ img12.pix 0 1 ≤ 128 :=
  ⟨rfl, by decide, by decide⟩

/-- C10 (amended): when every cell at or below the threshold lies
strictly inside the grid, the tracer performs only in-bounds accesses and
cannot panic; a region touching a border *may* make it panic — the hook
shape of `imgTopP` does — but border contact does not force a panic
(see the counterexample). -/
theorem claim_C10 :
    (∀ (g : Gray) (threshold : ℕ), interiorOnly g threshold →
      find_contour_from_grayscale g threshold ≠ .panic) ∧
    find_contour_from_grayscale imgTopP 128 = .panic :=
  ⟨fun _ _ hint => find_contour_no_panic hint, rfl⟩

/-- C10 witness: the single-cell image has its dark region strictly
inside, and indeed its trace does not panic. -/
theorem claim_C10_witness :
    find_contour_from_grayscale img4 128 ≠ .panic :=
  claim_C10.1 img4 128 (by unfold interiorOnly; decide)

/-- C10 counterexample: the two-cell bar of `imgLeftB` touches the left
image border, yet the tracer returns a 4-point contour: it neither
performs an out-of-bounds access nor panics, because the closing check
fires when the walk returns to the start cell before any `x - 1`
neighbour of a border cell is examined. -/
theorem claim_C10_counterexample :
    imgLeftB.pix 0 1 ≤ 128 ∧
    find_contour_from_grayscale imgLeftB 128 =
      .ok [emitPoint (0, 1) (0, 2) 0 255 128, emitPoint (1, 1) (1, 2) 0 255 128,
           emitPoint (1, 1) (2, 1) 0 255 128, emitPoint (1, 1) (1, 0) 0 255 128] :=
  ⟨by decide, rfl⟩

/-! ## The mesh-construction failure path -/

theorem simplify_singleton (q : Pt) : simplify [q] (Real.pi / 2) = [] := by
  simp only [simplify]
  rw [show List.range ([q] : List Pt).length = [0] from rfl]
  rw [marksAux_cons]
  rw [show ([q] : List Pt).getD (([q] : List Pt).length - 1) (0, 0) = q from rfl]
  rw [show ([q] : List Pt).getD 0 (0, 0) = q from rfl]
  rw [show ((0 + 1) % ([q] : List Pt).length) = 0 from by simp]
  rw [show ([q] : List Pt).getD 0 (0, 0) = q from rfl]
  rw [if_neg (delCond_half_pi_self q), marksAux_nil]
  rfl

theorem pipeline_img4 :
    find_contour_from_transparency_with_offset img4 pHalf = .ok [] := by
  unfold find_contour_from_transparency_with_offset
  rw [show find_contour_from_grayscale img4 128 =
    .ok [emitPoint (1, 1) (1, 2) 0 255 128] from rfl]
  dsimp only
  rw [show smooth [emitPoint (1, 1) (1, 2) 0 255 128] pHalf.smooth_iterations =
    [emitPoint (1, 1) (1, 2) 0 255 128] from rfl]
  rw [show scale [emitPoint (1, 1) (1, 2) 0 255 128] (img4.width : ℚ) (img4.height : ℚ) =
    [((emitPoint (1, 1) (1, 2) 0 255 128).1 / (img4.width : ℚ),
      (emitPoint (1, 1) (1, 2) 0 255 128).2 / (img4.height : ℚ))] from rfl]
  rw [show pHalf.simplify_angle = Real.pi / 2 from rfl]
  rw [simplify_singleton]

/-- C5 (amended): a contour with fewer than 3 points is rejected by the
external triangulator's polygon constructor, and the code `unwrap`s that
rejection: the result is a panic, not an error result returned to the
caller (only the contour-tracing failures are propagated as errors). -/
theorem claim_C5 (sdf : Gray) (params : Params) (thickness : ℝ) (include_uvs : Bool)
    (c : List Pt)
    (hc : find_contour_from_transparency_with_offset sdf params = .ok c)
    (hlen : c.length < 3) :
    create_mesh_from_image sdf params thickness include_uvs = .panic := by
  unfold create_mesh_from_image
  rw [hc]
  simp [polygonNew, hlen]

/-- C5 witness: the amended theorem at the single-cell image, whose
pipeline output is the empty contour. -/
theorem claim_C5_witness :
    create_mesh_from_image img4 pHalf (1 / 10) false = .panic :=
  claim_C5 img4 pHalf (1 / 10) false [] pipeline_img4 (by decide)

/-- C5 counterexample: on the single-cell image the pipeline's contour
(after the simplifier bug empties it) has fewer than 3 points, and
`create_mesh_from_image` ends in a panic — `Polygon::new(..).unwrap()` —
rather than in the error result the claim promises. -/
theorem claim_C5_counterexample :
    create_mesh_from_image img4 pHalf (1 / 20) true = .panic := by
  unfold create_mesh_from_image
  rw [pipeline_img4]
  simp [polygonNew]
theorem trace_imgDiamond :
    find_contour_from_grayscale imgDiamond 128 =
      .ok [emitPoint (1, 2) (1, 3) 0 255 128,
       emitPoint (2, 3) (1, 3) 0 255 128,
       emitPoint (2, 3) (2, 4) 0 255 128,
       emitPoint (2, 3) (3, 3) 0 255 128,
       emitPoint (3, 2) (3, 3) 0 255 128,
       emitPoint (3, 2) (4, 2) 0 255 128,
       emitPoint (3, 2) (3, 1) 0 255 128,
       emitPoint (2, 1) (3, 1) 0 255 128,
       emitPoint (2, 1) (2, 0) 0 255 128,
       emitPoint (2, 1) (1, 1) 0 255 128] := rfl

theorem cDiamond_eq :
    [emitPoint (1, 2) (1, 3) 0 255 128,
       emitPoint (2, 3) (1, 3) 0 255 128,
       emitPoint (2, 3) (2, 4) 0 255 128,
       emitPoint (2, 3) (3, 3) 0 255 128,
       emitPoint (3, 2) (3, 3) 0 255 128,
       emitPoint (3, 2) (4, 2) 0 255 128,
       emitPoint (3, 2) (3, 1) 0 255 128,
       emitPoint (2, 1) (3, 1) 0 255 128,
       emitPoint (2, 1) (2, 0) 0 255 128,
       emitPoint (2, 1) (1, 1) 0 255 128] = cDiamond := by
  simp only [cDiamond, emitPoint, List.cons.injEq, Prod.mk.injEq, and_true]
  norm_num

theorem scale_cDiamond : scale cDiamond 5 10 = cDiamondScaled := by
  simp only [scale, cDiamond, cDiamondScaled, List.map_cons, List.map_nil,
    List.cons.injEq, Prod.mk.injEq, and_true]
  norm_num

theorem simplify_cDiamond :
    simplify cDiamond (Real.pi / 2) =
    [(1, 637 / 255),
     (383 / 255, 3),
     (637 / 255, 3),
     (3, 637 / 255),
     (3, 383 / 255),
     (637 / 255, 1),
     (383 / 255, 1)] := by
  have hU0 : delCond (Real.pi / 2) (383 / 255, 1) (1, 637 / 255) (383 / 255, 3) :=
    (delCond_half_pi_iff (383 / 255, 1) (1, 637 / 255) (383 / 255, 3) (by norm_num [subQ, Prod.ext_iff])
      (by norm_num [subQ, Prod.ext_iff])).mpr (by norm_num [dotQ, subQ])
  have hU1 : delCond (Real.pi / 2) (383 / 255, 1) (383 / 255, 3) (2, 892 / 255) :=
    (delCond_half_pi_iff (383 / 255, 1) (383 / 255, 3) (2, 892 / 255) (by norm_num [subQ, Prod.ext_iff])
      (by norm_num [subQ, Prod.ext_iff])).mpr (by norm_num [dotQ, subQ])
  have hU2 : ¬ delCond (Real.pi / 2) (383 / 255, 1) (2, 892 / 255) (637 / 255, 3) := fun hc =>
    absurd ((delCond_half_pi_iff (383 / 255, 1) (2, 892 / 255) (637 / 255, 3) (by norm_num [subQ, Prod.ext_iff])
      (by norm_num [subQ, Prod.ext_iff])).mp hc) (by norm_num [dotQ, subQ])
  have hU3 : delCond (Real.pi / 2) (2, 892 / 255) (637 / 255, 3) (3, 637 / 255) :=
    (delCond_half_pi_iff (2, 892 / 255) (637 / 255, 3) (3, 637 / 255) (by norm_num [subQ, Prod.ext_iff])
      (by norm_num [subQ, Prod.ext_iff])).mpr (by norm_num [dotQ, subQ])
  have hU4 : delCond (Real.pi / 2) (2, 892 / 255) (3, 637 / 255) (892 / 255, 2) :=
    (delCond_half_pi_iff (2, 892 / 255) (3, 637 / 255) (892 / 255, 2) (by norm_num [subQ, Prod.ext_iff])
      (by norm_num [subQ, Prod.ext_iff])).mpr (by norm_num [dotQ, subQ])
  have hU5 : ¬ delCond (Real.pi / 2) (2, 892 / 255) (892 / 255, 2) (3, 383 / 255) := fun hc =>
    absurd ((delCond_half_pi_iff (2, 892 / 255) (892 / 255, 2) (3, 383 / 255) (by norm_num [subQ, Prod.ext_iff])
      (by norm_num [subQ, Prod.ext_iff])).mp hc) (by norm_num [dotQ, subQ])
  have hU6 : delCond (Real.pi / 2) (892 / 255, 2) (3, 383 / 255) (637 / 255, 1) :=
    (delCond_half_pi_iff (892 / 255, 2) (3, 383 / 255) (637 / 255, 1) (by norm_num [subQ, Prod.ext_iff])
      (by norm_num [subQ, Prod.ext_iff])).mpr (by norm_num [dotQ, subQ])
  have hU7 : delCond (Real.pi / 2) (892 / 255, 2) (637 / 255, 1) (2, 128 / 255) :=
    (delCond_half_pi_iff (892 / 255, 2) (637 / 255, 1) (2, 128 / 255) (by norm_num [subQ, Prod.ext_iff])
      (by norm_num [subQ, Prod.ext_iff])).mpr (by norm_num [dotQ, subQ])
  have hU8 : ¬ delCond (Real.pi / 2) (892 / 255, 2) (2, 128 / 255) (383 / 255, 1) := fun hc =>
    absurd ((delCond_half_pi_iff (892 / 255, 2) (2, 128 / 255) (383 / 255, 1) (by norm_num [subQ, Prod.ext_iff])
      (by norm_num [subQ, Prod.ext_iff])).mp hc) (by norm_num [dotQ, subQ])
  have hU9 : delCond (Real.pi / 2) (2, 128 / 255) (383 / 255, 1) (1, 637 / 255) :=
    (delCond_half_pi_iff (2, 128 / 255) (383 / 255, 1) (1, 637 / 255) (by norm_num [subQ, Prod.ext_iff])
      (by norm_num [subQ, Prod.ext_iff])).mpr (by norm_num [dotQ, subQ])
  simp only [simplify]
  rw [show List.range cDiamond.length = [0, 1, 2, 3, 4, 5, 6, 7, 8, 9] from rfl]
  rw [show cDiamond.getD (cDiamond.length - 1) (0, 0) = (383 / 255, 1) from rfl]
  rw [marksAux_cons]
  rw [show cDiamond.getD 0 (0, 0) = (1, 637 / 255) from rfl]
  rw [show cDiamond.getD ((0 + 1) % cDiamond.length) (0, 0) = (383 / 255, 3) from rfl]
  rw [if_pos hU0]
  rw [marksAux_cons]
  rw [show cDiamond.getD 1 (0, 0) = (383 / 255, 3) from rfl]
  rw [show cDiamond.getD ((1 + 1) % cDiamond.length) (0, 0) = (2, 892 / 255) from rfl]
  rw [if_pos hU1]
  rw [marksAux_cons]
  rw [show cDiamond.getD 2 (0, 0) = (2, 892 / 255) from rfl]
  rw [show cDiamond.getD ((2 + 1) % cDiamond.length) (0, 0) = (637 / 255, 3) from rfl]
  rw [if_neg hU2]
  rw [marksAux_cons]
  rw [show cDiamond.getD 3 (0, 0) = (637 / 255, 3) from rfl]
  rw [show cDiamond.getD ((3 + 1) % cDiamond.length) (0, 0) = (3, 637 / 255) from rfl]
  rw [if_pos hU3]
  rw [marksAux_cons]
  rw [show cDiamond.getD 4 (0, 0) = (3, 637 / 255) from rfl]
  rw [show cDiamond.getD ((4 + 1) % cDiamond.length) (0, 0) = (892 / 255, 2) from rfl]
  rw [if_pos hU4]
  rw [marksAux_cons]
  rw [show cDiamond.getD 5 (0, 0) = (892 / 255, 2) from rfl]
  rw [show cDiamond.getD ((5 + 1) % cDiamond.length) (0, 0) = (3, 383 / 255) from rfl]
  rw [if_neg hU5]
  rw [marksAux_cons]
  rw [show cDiamond.getD 6 (0, 0) = (3, 383 / 255) from rfl]
  rw [show cDiamond.getD ((6 + 1) % cDiamond.length) (0, 0) = (637 / 255, 1) from rfl]
  rw [if_pos hU6]
  rw [marksAux_cons]
  rw [show cDiamond.getD 7 (0, 0) = (637 / 255, 1) from rfl]
  rw [show cDiamond.getD ((7 + 1) % cDiamond.length) (0, 0) = (2, 128 / 255) from rfl]
  rw [if_pos hU7]
  rw [marksAux_cons]
  rw [show cDiamond.getD 8 (0, 0) = (2, 128 / 255) from rfl]
  rw [show cDiamond.getD ((8 + 1) % cDiamond.length) (0, 0) = (383 / 255, 1) from rfl]
  rw [if_neg hU8]
  rw [marksAux_cons]
  rw [show cDiamond.getD 9 (0, 0) = (383 / 255, 1) from rfl]
  rw [show cDiamond.getD ((9 + 1) % cDiamond.length) (0, 0) = (1, 637 / 255) from rfl]
  rw [if_pos hU9]
  rw [marksAux_nil]
  rfl

theorem simplify_cDiamondScaled :
    simplify cDiamondScaled (Real.pi / 2) =
    [(383 / 1275, 3 / 10),
     (2 / 5, 446 / 1275),
     (637 / 1275, 3 / 10),
     (3 / 5, 637 / 2550),
     (3 / 5, 383 / 2550),
     (637 / 1275, 1 / 10),
     (2 / 5, 64 / 1275),
     (383 / 1275, 1 / 10)] := by
  have hS0 : ¬ delCond (Real.pi / 2) (383 / 1275, 1 / 10) (1 / 5, 637 / 2550) (383 / 1275, 3 / 10) := fun hc =>
    absurd ((delCond_half_pi_iff (383 / 1275, 1 / 10) (1 / 5, 637 / 2550) (383 / 1275, 3 / 10) (by norm_num [subQ, Prod.ext_iff])
      (by norm_num [subQ, Prod.ext_iff])).mp hc) (by norm_num [dotQ, subQ])
  have hS1 : delCond (Real.pi / 2) (1 / 5, 637 / 2550) (383 / 1275, 3 / 10) (2 / 5, 446 / 1275) :=
    (delCond_half_pi_iff (1 / 5, 637 / 2550) (383 / 1275, 3 / 10) (2 / 5, 446 / 1275) (by norm_num [subQ, Prod.ext_iff])
      (by norm_num [subQ, Prod.ext_iff])).mpr (by norm_num [dotQ, subQ])
  have hS2 : delCond (Real.pi / 2) (1 / 5, 637 / 2550) (2 / 5, 446 / 1275) (637 / 1275, 3 / 10) :=
    (delCond_half_pi_iff (1 / 5, 637 / 2550) (2 / 5, 446 / 1275) (637 / 1275, 3 / 10) (by norm_num [subQ, Prod.ext_iff])
      (by norm_num [subQ, Prod.ext_iff])).mpr (by norm_num [dotQ, subQ])
  have hS3 : delCond (Real.pi / 2) (1 / 5, 637 / 2550) (637 / 1275, 3 / 10) (3 / 5, 637 / 2550) :=
    (delCond_half_pi_iff (1 / 5, 637 / 2550) (637 / 1275, 3 / 10) (3 / 5, 637 / 2550) (by norm_num [subQ, Prod.ext_iff])
      (by norm_num [subQ, Prod.ext_iff])).mpr (by norm_num [dotQ, subQ])
  have hS4 : delCond (Real.pi / 2) (1 / 5, 637 / 2550) (3 / 5, 637 / 2550) (892 / 1275, 1 / 5) :=
    (delCond_half_pi_iff (1 / 5, 637 / 2550) (3 / 5, 637 / 2550) (892 / 1275, 1 / 5) (by norm_num [subQ, Prod.ext_iff])
      (by norm_num [subQ, Prod.ext_iff])).mpr (by norm_num [dotQ, subQ])
  have hS5 : ¬ delCond (Real.pi / 2) (1 / 5, 637 / 2550) (892 / 1275, 1 / 5) (3 / 5, 383 / 2550) := fun hc =>
    absurd ((delCond_half_pi_iff (1 / 5, 637 / 2550) (892 / 1275, 1 / 5) (3 / 5, 383 / 2550) (by norm_num [subQ, Prod.ext_iff])
      (by norm_num [subQ, Prod.ext_iff])).mp hc) (by norm_num [dotQ, subQ])
  have hS6 : delCond (Real.pi / 2) (892 / 1275, 1 / 5) (3 / 5, 383 / 2550) (637 / 1275, 1 / 10) :=
    (delCond_half_pi_iff (892 / 1275, 1 / 5) (3 / 5, 383 / 2550) (637 / 1275, 1 / 10) (by norm_num [subQ, Prod.ext_iff])
      (by norm_num [subQ, Prod.ext_iff])).mpr (by norm_num [dotQ, subQ])
  have hS7 : delCond (Real.pi / 2) (892 / 1275, 1 / 5) (637 / 1275, 1 / 10) (2 / 5, 64 / 1275) :=
    (delCond_half_pi_iff (892 / 1275, 1 / 5) (637 / 1275, 1 / 10) (2 / 5, 64 / 1275) (by norm_num [subQ, Prod.ext_iff])
      (by norm_num [subQ, Prod.ext_iff])).mpr (by norm_num [dotQ, subQ])
  have hS8 : delCond (Real.pi / 2) (892 / 1275, 1 / 5) (2 / 5, 64 / 1275) (383 / 1275, 1 / 10) :=
    (delCond_half_pi_iff (892 / 1275, 1 / 5) (2 / 5, 64 / 1275) (383 / 1275, 1 / 10) (by norm_num [subQ, Prod.ext_iff])
      (by norm_num [subQ, Prod.ext_iff])).mpr (by norm_num [dotQ, subQ])
  have hS9 : delCond (Real.pi / 2) (892 / 1275, 1 / 5) (383 / 1275, 1 / 10) (1 / 5, 637 / 2550) :=
    (delCond_half_pi_iff (892 / 1275, 1 / 5) (383 / 1275, 1 / 10) (1 / 5, 637 / 2550) (by norm_num [subQ, Prod.ext_iff])
      (by norm_num [subQ, Prod.ext_iff])).mpr (by norm_num [dotQ, subQ])
  simp only [simplify]
  rw [show List.range cDiamondScaled.length = [0, 1, 2, 3, 4, 5, 6, 7, 8, 9] from rfl]
  rw [show cDiamondScaled.getD (cDiamondScaled.length - 1) (0, 0) = (383 / 1275, 1 / 10) from rfl]
  rw [marksAux_cons]
  rw [show cDiamondScaled.getD 0 (0, 0) = (1 / 5, 637 / 2550) from rfl]
  rw [show cDiamondScaled.getD ((0 + 1) % cDiamondScaled.length) (0, 0) = (383 / 1275, 3 / 10) from rfl]
  rw [if_neg hS0]
  rw [marksAux_cons]
  rw [show cDiamondScaled.getD 1 (0, 0) = (383 / 1275, 3 / 10) from rfl]
  rw [show cDiamondScaled.getD ((1 + 1) % cDiamondScaled.length) (0, 0) = (2 / 5, 446 / 1275) from rfl]
  rw [if_pos hS1]
  rw [marksAux_cons]
  rw [show cDiamondScaled.getD 2 (0, 0) = (2 / 5, 446 / 1275) from rfl]
  rw [show cDiamondScaled.getD ((2 + 1) % cDiamondScaled.length) (0, 0) = (637 / 1275, 3 / 10) from rfl]
  rw [if_pos hS2]
  rw [marksAux_cons]
  rw [show cDiamondScaled.getD 3 (0, 0) = (637 / 1275, 3 / 10) from rfl]
  rw [show cDiamondScaled.getD ((3 + 1) % cDiamondScaled.length) (0, 0) = (3 / 5, 637 / 2550) from rfl]
  rw [if_pos hS3]
  rw [marksAux_cons]
  rw [show cDiamondScaled.getD 4 (0, 0) = (3 / 5, 637 / 2550) from rfl]
  rw [show cDiamondScaled.getD ((4 + 1) % cDiamondScaled.length) (0, 0) = (892 / 1275, 1 / 5) from rfl]
  rw [if_pos hS4]
  rw [marksAux_cons]
  rw [show cDiamondScaled.getD 5 (0, 0) = (892 / 1275, 1 / 5) from rfl]
  rw [show cDiamondScaled.getD ((5 + 1) % cDiamondScaled.length) (0, 0) = (3 / 5, 383 / 2550) from rfl]
  rw [if_neg hS5]
  rw [marksAux_cons]
  rw [show cDiamondScaled.getD 6 (0, 0) = (3 / 5, 383 / 2550) from rfl]
  rw [show cDiamondScaled.getD ((6 + 1) % cDiamondScaled.length) (0, 0) = (637 / 1275, 1 / 10) from rfl]
  rw [if_pos hS6]
  rw [marksAux_cons]
  rw [show cDiamondScaled.getD 7 (0, 0) = (637 / 1275, 1 / 10) from rfl]
  rw [show cDiamondScaled.getD ((7 + 1) % cDiamondScaled.length) (0, 0) = (2 / 5, 64 / 1275) from rfl]
  rw [if_pos hS7]
  rw [marksAux_cons]
  rw [show cDiamondScaled.getD 8 (0, 0) = (2 / 5, 64 / 1275) from rfl]
  rw [show cDiamondScaled.getD ((8 + 1) % cDiamondScaled.length) (0, 0) = (383 / 1275, 1 / 10) from rfl]
  rw [if_pos hS8]
  rw [marksAux_cons]
  rw [show cDiamondScaled.getD 9 (0, 0) = (383 / 1275, 1 / 10) from rfl]
  rw [show cDiamondScaled.getD ((9 + 1) % cDiamondScaled.length) (0, 0) = (1 / 5, 637 / 2550) from rfl]
  rw [if_pos hS9]
  rw [marksAux_nil]
  rfl

/-- C2 (amended): the pipeline applies its stages in the order written in
the source: tracing, then smoothing, then *scaling into unit image
space*, then simplification — the simplifier operates on the scaled
contour, not on the smoothed pixel-space contour as the spec's stage
order (3 smoother, 4 simplifier, 5 scaler) states. -/
theorem claim_C2 (sdf : Gray) (params : Params) (c : List Pt)
    (h : find_contour_from_grayscale sdf 128 = .ok c) :
    find_contour_from_transparency_with_offset sdf params =
      .ok (simplify (scale (smooth c params.smooth_iterations)
        (sdf.width : ℚ) (sdf.height : ℚ)) params.simplify_angle) := by
  unfold find_contour_from_transparency_with_offset
  rw [h]

/-- C2 witness: the amended theorem applied to the single-cell image. -/
theorem claim_C2_witness :
    find_contour_from_transparency_with_offset img4 pHalf =
      .ok (simplify (scale (smooth [emitPoint (1, 1) (1, 2) 0 255 128]
        pHalf.smooth_iterations) (img4.width : ℚ) (img4.height : ℚ)) pHalf.simplify_angle) :=
  claim_C2 img4 pHalf _ rfl

/-- C2 counterexample: on the diamond image with no smoothing and angle
tolerance `π/2`, running the simplifier after scaling (the code) keeps 8
points while running it before scaling (the spec's order) keeps 7: the
non-uniform scaling by `(5, 10)` changes which turning angles pass the
threshold, so the two stage orders produce different contours. -/
theorem claim_C2_counterexample :
    find_contour_from_transparency_with_offset imgDiamond pHalf ≠
      pipelineSpecOrder imgDiamond pHalf := by
  have htr : find_contour_from_grayscale imgDiamond 128 = .ok cDiamond := by
    rw [trace_imgDiamond, cDiamond_eq]
  unfold find_contour_from_transparency_with_offset pipelineSpecOrder
  rw [htr]
  dsimp only
  rw [show smooth cDiamond pHalf.smooth_iterations = cDiamond from rfl]
  rw [show ((imgDiamond.width : ℕ) : ℚ) = 5 from by norm_num [imgDiamond]]
  rw [show ((imgDiamond.height : ℕ) : ℚ) = 10 from by norm_num [imgDiamond]]
  rw [show pHalf.simplify_angle = Real.pi / 2 from rfl]
  rw [scale_cDiamond, simplify_cDiamondScaled, simplify_cDiamond]
  intro hEq
  have h1 := congrArg (fun o => match o with | TraceOutcome.ok l => l.length | _ => 0) hEq
  simp [scale] at h1
